import Mathlib

/-!
Verification of the cache-index subsystem and the email-forwarding domain
helpers of the wp-calypso repository.

The cache-index implementation itself is not part of the provided sources
(only its test suite is), so the subsystem is modelled from the spec:
an asynchronous key-value Storage Adapter holding data records plus one
reserved index key, and the Cache Index operations (getAll, addItem,
removeItem, pruneStaleRecords, clearAll, clearPageSeries,
clearRecordsByParamFilter) as explicit state-passing functions over that
storage.  The email-forwarding helpers are embedded directly from
`client/lib/domains/email-forwarding/index.js`.
-/

/-- Modelled from the spec: a structured snapshot of the normalized request
parameters (`reqParams`) attached to an index entry; the Key Normalizer's
output.  Its internal shape is opaque to the Cache Index, so a list of
string pairs suffices. -/
abbrev Params := List (String × String)

/-- Modelled from the spec: one Index Entry, the metadata record describing
one cached data item: `key`, `timestamp` of last write, optional
`pageSeriesKey`, optional `reqParams` snapshot. -/
structure Entry where
  key : String
  timestamp : Int
  pageSeriesKey : Option String := none
  reqParams : Option Params := none
deriving DecidableEq, Repr

/-- Modelled from the spec: a value held by the Storage Adapter: either the
serialized Index (under the reserved key) or an ordinary data record.  Data
record payloads are opaque to the Cache Index, so a natural number stands
for them. -/
inductive Value where
  | index (entries : List Entry)
  | record (payload : Nat)
deriving DecidableEq, Repr

/-- Modelled from the spec: the Storage Adapter's state, an asynchronous
key-value store; `none` means the key is absent. -/
def Storage := String → Option Value

/-- Modelled from the spec: the reserved storage key under which the Index
is persisted, distinct from any data key (`RECORDS_LIST_KEY` in the
sources' constants module). -/
def RECORDS_LIST_KEY : String := "records-list"

/-- Storage with every key absent. -/
def emptyStorage : Storage := fun _ => none

/-- Remove one key from storage (the adapter's `remove`). -/
def removeKey (s : Storage) (k : String) : Storage :=
  fun k2 => if k2 = k then none else s k2

/-- Remove a list of keys from storage, left to right. -/
def removeKeys (s : Storage) (ks : List String) : Storage :=
  ks.foldl removeKey s

/-- Persist an index value under the reserved key (the adapter's `set`
applied to the reserved key). -/
def setIndex (s : Storage) (l : List Entry) : Storage :=
  fun k => if k = RECORDS_LIST_KEY then some (Value.index l) else s k

/-- Modelled from the spec: `getAll()` reads exactly the reserved index key
and returns the ordered sequence of Index Entries stored there, or an
absent result (`none`) if no index has ever been written. -/
def getAll (s : Storage) : Option (List Entry) :=
  match s RECORDS_LIST_KEY with
  | some (Value.index l) => some l
  | _ => none

/-- The index as seen by the mutating operations: a missing index is
treated as an empty index. -/
def getAllIndex (s : Storage) : List Entry :=
  (getAll s).getD []

/-- Modelled from the spec: `addItem(key, reqParams?, pageSeriesKey?)`
constructs the Index Entry `\x7bkey, timestamp: now(), reqParams?,
pageSeriesKey?\x7d`, prepends it to the current index fetched fresh, and
persists the updated index.  The clock reading `now` is passed
explicitly. -/
def addItem (s : Storage) (now : Int) (key : String)
    (reqParams : Option Params := none)
    (pageSeriesKey : Option String := none) : Storage :=
  setIndex s ({ key := key, timestamp := now,
                pageSeriesKey := pageSeriesKey,
                reqParams := reqParams } :: getAllIndex s)

/-- One recorded `addItem` call: the clock reading at the call and the
three arguments. -/
structure AddCall where
  now : Int
  key : String
  reqParams : Option Params := none
  pageSeriesKey : Option String := none

/-- The Index Entry an `addItem` call constructs. -/
def AddCall.entry (c : AddCall) : Entry :=
  { key := c.key, timestamp := c.now,
    pageSeriesKey := c.pageSeriesKey, reqParams := c.reqParams }

/-- Run a sequence of `addItem` calls in order. -/
def runAdds (s : Storage) (calls : List AddCall) : Storage :=
  calls.foldl (fun acc c => addItem acc c.now c.key c.reqParams c.pageSeriesKey) s

/-- Modelled from the spec: `removeItem(key)` removes the data entry at
`key` from storage and removes the corresponding Index Entry, leaving all
other entries (index and data) unmodified. -/
def removeItem (s : Storage) (key : String) : Storage :=
  setIndex (removeKey s key)
    ((getAllIndex s).filter (fun e => !(e.key == key)))

/-- Modelled from the spec: `pruneStaleRecords(maxAgeMs)` computes
`cutoff = now() - maxAgeMs`, removes the data record of every index entry
with `timestamp < cutoff`, and persists the index containing only the
entries with `timestamp >= cutoff`, preserving their relative order. -/
def pruneStaleRecords (s : Storage) (now maxAgeMs : Int) : Storage :=
  let cutoff := now - maxAgeMs
  let entries := getAllIndex s
  let stale := entries.filter (fun e => e.timestamp < cutoff)
  let kept := entries.filter (fun e => cutoff ≤ e.timestamp)
  setIndex (removeKeys s (stale.map Entry.key)) kept

/-- Modelled from the spec: `clearAll()` removes every data record
referenced by the current index, then removes the index entry itself,
leaving storage keys unrelated to the subsystem untouched. -/
def clearAll (s : Storage) : Storage :=
  removeKey (removeKeys s ((getAllIndex s).map Entry.key)) RECORDS_LIST_KEY

/-- Modelled from the spec: `clearPageSeries(requestParamsOrKey)` derives
the page series key for the given request via the Key Normalizer
(`seriesKeyOf`, an external collaborator passed as a function) and removes
every Index Entry whose `pageSeriesKey` equals it, along with each such
entry's data record; other entries are untouched. -/
def clearPageSeries (seriesKeyOf : Params → String) (s : Storage)
    (params : Params) : Storage :=
  let sk := seriesKeyOf params
  let entries := getAllIndex s
  let matching := entries.filter (fun e => e.pageSeriesKey == some sk)
  let kept := entries.filter (fun e => !(e.pageSeriesKey == some sk))
  setIndex (removeKeys s (matching.map Entry.key)) kept

/-- Modelled from the spec: `clearRecordsByParamFilter(predicate)`
evaluates `predicate(entry.reqParams)` for every Index Entry; for every
entry where the predicate holds it removes the entry's data record and
drops the entry from the index; all other entries are retained in their
relative order. -/
def clearRecordsByParamFilter (p : Option Params → Bool) (s : Storage) : Storage :=
  let entries := getAllIndex s
  let matching := entries.filter (fun e => p e.reqParams)
  let kept := entries.filter (fun e => !(p e.reqParams))
  setIndex (removeKeys s (matching.map Entry.key)) kept

/-! ### Basic storage lemmas -/

theorem removeKeys_apply (s : Storage) (ks : List String) (k : String) :
    removeKeys s ks k = if k ∈ ks then none else s k := by
  induction ks generalizing s with
  | nil => simp [removeKeys]
  | cons a t ih =>
    simp only [removeKeys, List.foldl_cons] at *
    rw [ih (removeKey s a)]
    by_cases ht : k ∈ t
    · simp [ht]
    · by_cases ha : k = a <;> simp [removeKey, ht, ha]

theorem getAll_setIndex (s : Storage) (l : List Entry) :
    getAll (setIndex s l) = some l := by
  simp [getAll, setIndex]

theorem getAllIndex_setIndex (s : Storage) (l : List Entry) :
    getAllIndex (setIndex s l) = l := by
  simp [getAllIndex, getAll_setIndex]

theorem setIndex_apply_ne (s : Storage) (l : List Entry) (k : String)
    (h : k ≠ RECORDS_LIST_KEY) : setIndex s l k = s k := by
  simp [setIndex, h]

theorem getAllIndex_addItem (s : Storage) (now : Int) (key : String)
    (reqParams : Option Params) (pageSeriesKey : Option String) :
    getAllIndex (addItem s now key reqParams pageSeriesKey) =
      { key := key, timestamp := now, pageSeriesKey := pageSeriesKey,
        reqParams := reqParams } :: getAllIndex s := by
  simp [addItem, getAllIndex_setIndex]

/-! ### Claim theorems -/

/-- C9: on a storage state where the reserved index key has never been
written, `getAll()` resolves to an absent result rather than an error; on
every storage state `getAll` returns exactly the value stored under the
reserved index key and depends on no other storage-resident data (it is
side-effect-free by construction, taking the storage state as a value). -/
theorem getAll_reads_exactly_index_key (s : Storage) :
    (s RECORDS_LIST_KEY = none → getAll s = none) ∧
    (∀ l : List Entry, s RECORDS_LIST_KEY = some (Value.index l) →
      getAll s = some l) ∧
    (∀ s2 : Storage, s RECORDS_LIST_KEY = s2 RECORDS_LIST_KEY →
      getAll s = getAll s2) := by
  refine ⟨fun h => ?_, fun l h => ?_, fun s2 h => ?_⟩
  · simp [getAll, h]
  · simp [getAll, h]
  · simp [getAll, h]

/-- Witness for C9: on the empty storage `getAll` is absent, and a storage
agreeing with the empty storage on the reserved key yields the same
result. -/
theorem getAll_reads_exactly_index_key_witness :
    getAll emptyStorage = none ∧ getAll emptyStorage = getAll emptyStorage :=
  ⟨(getAll_reads_exactly_index_key emptyStorage).1 rfl,
   (getAll_reads_exactly_index_key emptyStorage).2.2 emptyStorage rfl⟩

/-- C2: after any sequence of `addItem` calls the index holds the entries
constructed by the calls in reverse insertion order (most recently added
first) in front of whatever was there before, and immediately after
`addItem(key, params, seriesKey)` the leading entry of `getAll()` carries
that `key`, that `pageSeriesKey`, and the timestamp taken at the call. -/
theorem addItem_reverse_insertion_order (s : Storage) (calls : List AddCall) :
    getAllIndex (runAdds s calls) =
      (calls.reverse.map AddCall.entry) ++ getAllIndex s ∧
    ∀ (now : Int) (key : String) (reqParams : Option Params)
      (pageSeriesKey : Option String),
      (getAllIndex (addItem s now key reqParams pageSeriesKey)).head? =
        some { key := key, timestamp := now, pageSeriesKey := pageSeriesKey,
               reqParams := reqParams } := by
  constructor
  · induction calls generalizing s with
    | nil => simp [runAdds]
    | cons c t ih =>
      have : runAdds s (c :: t) =
          runAdds (addItem s c.now c.key c.reqParams c.pageSeriesKey) t := by
        simp [runAdds]
      rw [this, ih, getAllIndex_addItem]
      simp [AddCall.entry]
  · intro now key reqParams pageSeriesKey
    rw [getAllIndex_addItem]
    rfl

/-- A concrete storage whose index already holds an entry for key `"k"`,
used to exercise `addItem` on a key that is already present. -/
def dupStorage : Storage :=
  setIndex emptyStorage [{ key := "k", timestamp := 0 }]

/-- C3 counterexample: on an index that already contains an entry for
`"k"`, `addItem("k")` leaves two entries for `"k"` in the index, so
`getAll()` does not contain exactly one entry for that key. -/
theorem addItem_no_dedup_counterexample :
    (getAllIndex (addItem dupStorage 1 "k")).countP (fun e => e.key == "k") = 2 ∧
    ¬ (getAllIndex (addItem dupStorage 1 "k")).countP (fun e => e.key == "k") = 1 := by
  constructor
  · rfl
  · intro h
    simp [dupStorage, getAllIndex_addItem, getAllIndex_setIndex,
      List.countP_cons] at h

/-- C3 amended: after `addItem(key, reqParams?, pageSeriesKey?)` the new
entry for `key` is at the front of `getAll()`; and when the starting index
contained no entry for `key`, the resulting index contains exactly one
entry for `key`.  (If `key` was already present, a duplicate leading entry
is inserted: the design does not deduplicate.) -/
theorem addItem_front_unique_if_fresh (s : Storage) (now : Int) (key : String)
    (reqParams : Option Params) (pageSeriesKey : Option String)
    (hfresh : (getAllIndex s).countP (fun e => e.key == key) = 0) :
    (getAllIndex (addItem s now key reqParams pageSeriesKey)).head? =
      some { key := key, timestamp := now, pageSeriesKey := pageSeriesKey,
             reqParams := reqParams } ∧
    (getAllIndex (addItem s now key reqParams pageSeriesKey)).countP
      (fun e => e.key == key) = 1 := by
  rw [getAllIndex_addItem]
  refine ⟨rfl, ?_⟩
  simp [List.countP_cons, hfresh]

/-- Witness for C3's amended theorem: adding `"fresh"` to the empty
storage puts it in front and the index holds exactly one entry for it. -/
theorem addItem_front_unique_if_fresh_witness :
    (getAllIndex (addItem emptyStorage 5 "fresh" none none)).head? =
      some { key := "fresh", timestamp := 5, pageSeriesKey := none,
             reqParams := none } ∧
    (getAllIndex (addItem emptyStorage 5 "fresh" none none)).countP
      (fun e => e.key == "fresh") = 1 :=
  addItem_front_unique_if_fresh emptyStorage 5 "fresh" none none (by decide)

theorem length_filter_not_add_countP {α : Type} (l : List α) (p : α → Bool) :
    (l.filter (fun a => !(p a))).length + l.countP p = l.length := by
  induction l with
  | nil => simp
  | cons a t ih =>
    by_cases h : p a = true <;>
      simp [List.filter_cons, List.countP_cons, h, ← ih] <;> omega

/-- C4: on an index containing exactly one entry for `key` (with `key`
distinct from the reserved index key), `removeItem(key)` removes that
entry's data record from storage, drops exactly that Index Entry (the
persisted index is the original one filtered to the other entries, in
order, hence every other entry's fields are unchanged), decreases the
index length by exactly one, and leaves every other storage key's record
unchanged. -/
theorem removeItem_removes_exactly_one (s : Storage) (key : String)
    (hkey : key ≠ RECORDS_LIST_KEY)
    (hone : (getAllIndex s).countP (fun e => e.key == key) = 1) :
    getAllIndex (removeItem s key) =
      (getAllIndex s).filter (fun e => !(e.key == key)) ∧
    (getAllIndex (removeItem s key)).length + 1 = (getAllIndex s).length ∧
    removeItem s key key = none ∧
    (∀ k, k ≠ key → k ≠ RECORDS_LIST_KEY → removeItem s key k = s k) := by
  refine ⟨getAllIndex_setIndex _ _, ?_, ?_, ?_⟩
  · rw [removeItem, getAllIndex_setIndex]
    have := length_filter_not_add_countP (getAllIndex s)
      (fun e => e.key == key)
    omega
  · rw [removeItem, setIndex_apply_ne _ _ _ hkey]
    simp [removeKey]
  · intro k hk hk2
    rw [removeItem, setIndex_apply_ne _ _ _ hk2]
    simp [removeKey, hk]

/-- A concrete storage mirroring the repository test for `removeItem`:
three indexed data records. -/
def threeStorage : Storage :=
  setIndex
    (fun k => if k = "a" ∨ k = "b" ∨ k = "c" then some (Value.record 7) else none)
    [{ key := "a", timestamp := 3 }, { key := "b", timestamp := 2 },
     { key := "c", timestamp := 1 }]

/-- Witness for C4: removing the middle key `"b"` of a three-entry index
leaves the other two entries, shortens the index by one, deletes `"b"`'s
data record and leaves `"a"`'s record in place. -/
theorem removeItem_removes_exactly_one_witness :
    getAllIndex (removeItem threeStorage "b") =
      (getAllIndex threeStorage).filter (fun e => !(e.key == "b")) ∧
    (getAllIndex (removeItem threeStorage "b")).length + 1 =
      (getAllIndex threeStorage).length ∧
    removeItem threeStorage "b" "b" = none ∧
    removeItem threeStorage "b" "a" = threeStorage "a" := by
  have h := removeItem_removes_exactly_one threeStorage "b"
    (by decide) (by rfl)
  exact ⟨h.1, h.2.1, h.2.2.1, h.2.2.2 "a" (by decide) (by decide)⟩

theorem clearAll_apply (s : Storage) (k : String) :
    clearAll s k =
      if k = RECORDS_LIST_KEY ∨ k ∈ (getAllIndex s).map Entry.key then none
      else s k := by
  simp only [clearAll, removeKey, removeKeys_apply]
  by_cases h1 : k = RECORDS_LIST_KEY <;>
    by_cases h2 : k ∈ (getAllIndex s).map Entry.key <;> simp [h1, h2]

/-- C5: `clearAll()` removes every data record whose key is referenced by
the current index, removes the reserved index key itself, and leaves every
storage key that is neither referenced by the index nor the reserved key
unchanged. -/
theorem clearAll_resets_managed_state (s : Storage) :
    clearAll s RECORDS_LIST_KEY = none ∧
    (∀ e ∈ getAllIndex s, clearAll s e.key = none) ∧
    (∀ k, k ∉ (getAllIndex s).map Entry.key → k ≠ RECORDS_LIST_KEY →
      clearAll s k = s k) := by
  refine ⟨?_, ?_, ?_⟩
  · rw [clearAll_apply]; simp
  · intro e he
    rw [clearAll_apply]
    simp [List.mem_map_of_mem Entry.key he]
  · intro k h1 h2
    rw [clearAll_apply]
    simp [h1, h2]

/-- A concrete storage mirroring the repository test for `clearAll`: two
indexed data records plus one unrelated storage key. -/
def clearStorageEx : Storage :=
  setIndex
    (fun k => if k = "a" ∨ k = "b" then some (Value.record 1)
      else if k = "someRecord" then some (Value.record 9) else none)
    [{ key := "a", timestamp := 3 }, { key := "b", timestamp := 2 }]

/-- Witness for C5: after `clearAll` the index key and both referenced
data records are gone and the unrelated key still holds its record. -/
theorem clearAll_resets_managed_state_witness :
    clearAll clearStorageEx RECORDS_LIST_KEY = none ∧
    clearAll clearStorageEx "a" = none ∧
    clearAll clearStorageEx "someRecord" = clearStorageEx "someRecord" := by
  have h := clearAll_resets_managed_state clearStorageEx
  refine ⟨h.1, ?_, h.2.2 "someRecord" (by decide) (by decide)⟩
  have := h.2.1 { key := "a", timestamp := 3 } (by decide)
  simpa using this

/-- C6: `clearAll()` is idempotent on the storage state: a second call
leaves storage exactly as the first call left it. -/
theorem clearAll_idempotent (s : Storage) :
    clearAll (clearAll s) = clearAll s := by
  have h1 : clearAll s RECORDS_LIST_KEY = none := by
    rw [clearAll_apply]; simp
  have h2 : getAllIndex (clearAll s) = [] := by
    simp [getAllIndex, getAll, h1]
  funext k
  rw [clearAll_apply (clearAll s) k, h2]
  by_cases hk : k = RECORDS_LIST_KEY
  · subst hk; simp [h1]
  · simp [hk]

/-- C1: for a well-formed index (no duplicate keys, no entry keyed by the
reserved index key, every indexed key holding a data record),
`pruneStaleRecords(maxAgeMs)` persists as the index exactly the entries
with `timestamp >= now - maxAgeMs` in their original relative order,
removes the data record of every entry with `timestamp < now - maxAgeMs`,
and leaves each kept entry's data record (unchanged, hence present) and
the reserved index key present in storage. -/
theorem pruneStaleRecords_correct (s : Storage) (now maxAgeMs : Int)
    (hNodup : ((getAllIndex s).map Entry.key).Nodup)
    (hKeys : ∀ e ∈ getAllIndex s, e.key ≠ RECORDS_LIST_KEY)
    (hData : ∀ e ∈ getAllIndex s, s e.key ≠ none) :
    getAll (pruneStaleRecords s now maxAgeMs) =
      some ((getAllIndex s).filter (fun e => now - maxAgeMs ≤ e.timestamp)) ∧
    (∀ e ∈ getAllIndex s, e.timestamp < now - maxAgeMs →
      pruneStaleRecords s now maxAgeMs e.key = none) ∧
    (∀ e ∈ getAllIndex s, now - maxAgeMs ≤ e.timestamp →
      pruneStaleRecords s now maxAgeMs e.key = s e.key ∧
      pruneStaleRecords s now maxAgeMs e.key ≠ none) ∧
    pruneStaleRecords s now maxAgeMs RECORDS_LIST_KEY ≠ none := by
  have hstale_mem : ∀ e ∈ getAllIndex s, e.timestamp < now - maxAgeMs →
      e.key ∈ ((getAllIndex s).filter
        (fun e => e.timestamp < now - maxAgeMs)).map Entry.key := by
    intro e he ht
    exact List.mem_map_of_mem _ (List.mem_filter.2 ⟨he, by simpa using ht⟩)
  have hkept_not : ∀ e ∈ getAllIndex s, now - maxAgeMs ≤ e.timestamp →
      e.key ∉ ((getAllIndex s).filter
        (fun e => e.timestamp < now - maxAgeMs)).map Entry.key := by
    intro e he ht hmem
    obtain ⟨e2, he2, hkeq⟩ := List.mem_map.1 hmem
    have he2mem := (List.mem_filter.1 he2).1
    have he2lt : e2.timestamp < now - maxAgeMs := by
      have := (List.mem_filter.1 he2).2
      simpa using this
    have heq : e2 = e := List.inj_on_of_nodup_map hNodup he2mem he hkeq
    subst heq
    omega
  refine ⟨?_, ?_, ?_, ?_⟩
  · simp only [pruneStaleRecords]
    exact getAll_setIndex _ _
  · intro e he ht
    simp only [pruneStaleRecords]
    rw [setIndex_apply_ne _ _ _ (hKeys e he), removeKeys_apply]
    simp [hstale_mem e he ht]
  · intro e he ht
    have hmain : pruneStaleRecords s now maxAgeMs e.key = s e.key := by
      simp only [pruneStaleRecords]
      rw [setIndex_apply_ne _ _ _ (hKeys e he), removeKeys_apply]
      simp [hkept_not e he ht]
    exact ⟨hmain, by rw [hmain]; exact hData e he⟩
  · simp only [pruneStaleRecords]
    simp [setIndex]

/-- A concrete storage mirroring the repository test for
`pruneStaleRecords`: a fresh entry (timestamp 100) and a stale entry
(timestamp 0), each with its data record. -/
def pruneStorageEx : Storage :=
  setIndex
    (fun k => if k = "k1" ∨ k = "k2" then some (Value.record 1) else none)
    [{ key := "k1", timestamp := 100 }, { key := "k2", timestamp := 0 }]

/-- Witness for C1: pruning with `now = 100`, `maxAgeMs = 50` keeps only
the fresh entry, deletes the stale entry's data record, and leaves the
fresh entry's data record and the index key present. -/
theorem pruneStaleRecords_correct_witness :
    getAll (pruneStaleRecords pruneStorageEx 100 50) =
      some ((getAllIndex pruneStorageEx).filter
        (fun e => (100 : Int) - 50 ≤ e.timestamp)) ∧
    pruneStaleRecords pruneStorageEx 100 50 "k2" = none ∧
    pruneStaleRecords pruneStorageEx 100 50 "k1" = pruneStorageEx "k1" ∧
    pruneStaleRecords pruneStorageEx 100 50 RECORDS_LIST_KEY ≠ none := by
  have h := pruneStaleRecords_correct pruneStorageEx 100 50
    (by decide) (by decide) (by decide)
  refine ⟨h.1, ?_, ?_, h.2.2.2⟩
  · have := h.2.1 { key := "k2", timestamp := 0 } (by decide) (by decide)
    simpa using this
  · have := (h.2.2.1 { key := "k1", timestamp := 100 } (by decide) (by decide)).1
    simpa using this

/-- C7: for a well-formed index, `clearPageSeries(params)` removes exactly
the Index Entries whose `pageSeriesKey` equals the series key the Key
Normalizer derives from `params`, together with each such entry's data
record; entries with no `pageSeriesKey` or a different one are kept in
their relative order with their data records unchanged, and storage keys
not referenced by a removed entry (other than the reserved key, which now
holds the filtered index) are unchanged. -/
theorem clearPageSeries_correct (seriesKeyOf : Params → String)
    (s : Storage) (params : Params)
    (hNodup : ((getAllIndex s).map Entry.key).Nodup)
    (hKeys : ∀ e ∈ getAllIndex s, e.key ≠ RECORDS_LIST_KEY) :
    getAll (clearPageSeries seriesKeyOf s params) =
      some ((getAllIndex s).filter
        (fun e => !(e.pageSeriesKey == some (seriesKeyOf params)))) ∧
    (∀ e ∈ getAllIndex s, e.pageSeriesKey = some (seriesKeyOf params) →
      clearPageSeries seriesKeyOf s params e.key = none) ∧
    (∀ e ∈ getAllIndex s, e.pageSeriesKey ≠ some (seriesKeyOf params) →
      clearPageSeries seriesKeyOf s params e.key = s e.key) ∧
    (∀ k, k ∉ (getAllIndex s).map Entry.key → k ≠ RECORDS_LIST_KEY →
      clearPageSeries seriesKeyOf s params k = s k) := by
  have hmatch_mem : ∀ e ∈ getAllIndex s,
      e.pageSeriesKey = some (seriesKeyOf params) →
      e.key ∈ ((getAllIndex s).filter
        (fun e => e.pageSeriesKey == some (seriesKeyOf params))).map Entry.key := by
    intro e he ht
    exact List.mem_map_of_mem _ (List.mem_filter.2 ⟨he, by simpa using ht⟩)
  have hother_not : ∀ e ∈ getAllIndex s,
      e.pageSeriesKey ≠ some (seriesKeyOf params) →
      e.key ∉ ((getAllIndex s).filter
        (fun e => e.pageSeriesKey == some (seriesKeyOf params))).map Entry.key := by
    intro e he ht hmem
    obtain ⟨e2, he2, hkeq⟩ := List.mem_map.1 hmem
    have he2mem := (List.mem_filter.1 he2).1
    have he2eq : e2.pageSeriesKey = some (seriesKeyOf params) := by
      have := (List.mem_filter.1 he2).2
      simpa using this
    have heq : e2 = e := List.inj_on_of_nodup_map hNodup he2mem he hkeq
    subst heq
    exact ht he2eq
  have hunrel_not : ∀ k, k ∉ (getAllIndex s).map Entry.key →
      k ∉ ((getAllIndex s).filter
        (fun e => e.pageSeriesKey == some (seriesKeyOf params))).map Entry.key := by
    intro k hk hmem
    obtain ⟨e2, he2, hkeq⟩ := List.mem_map.1 hmem
    exact hk (hkeq ▸ List.mem_map_of_mem _ (List.mem_filter.1 he2).1)
  refine ⟨?_, ?_, ?_, ?_⟩
  · simp only [clearPageSeries]
    exact getAll_setIndex _ _
  · intro e he ht
    simp only [clearPageSeries]
    rw [setIndex_apply_ne _ _ _ (hKeys e he), removeKeys_apply]
    simp [hmatch_mem e he ht]
  · intro e he ht
    simp only [clearPageSeries]
    rw [setIndex_apply_ne _ _ _ (hKeys e he), removeKeys_apply]
    simp [hother_not e he ht]
  · intro k h1 h2
    simp only [clearPageSeries]
    rw [setIndex_apply_ne _ _ _ h2, removeKeys_apply]
    simp [hunrel_not k h1]

/-- A Key Normalizer stub for the witnesses: the series key of a request
is the value stored under its `"series"` parameter. -/
def seriesKeyOfEx (params : Params) : String :=
  ((params.lookup "series").getD "")

/-- A concrete storage mirroring the repository test for
`clearPageSeries`: two entries of series `"A"`, one of series `"B"`, their
data records, and one unrelated storage key. -/
def seriesStorageEx : Storage :=
  setIndex
    (fun k => if k = "p1" ∨ k = "p2" ∨ k = "q" then some (Value.record 1)
      else if k = "other" then some (Value.record 9) else none)
    [{ key := "p1", timestamp := 0, pageSeriesKey := some "A" },
     { key := "p2", timestamp := 0, pageSeriesKey := some "A" },
     { key := "q", timestamp := 0, pageSeriesKey := some "B" }]

/-- Witness for C7: clearing series `"A"` keeps exactly the series-`"B"`
entry, deletes a series-`"A"` data record, and leaves the `"B"` data
record and the unrelated key unchanged. -/
theorem clearPageSeries_correct_witness :
    getAll (clearPageSeries seriesKeyOfEx seriesStorageEx [("series", "A")]) =
      some ((getAllIndex seriesStorageEx).filter
        (fun e => !(e.pageSeriesKey ==
          some (seriesKeyOfEx [("series", "A")])))) ∧
    clearPageSeries seriesKeyOfEx seriesStorageEx [("series", "A")] "p1" = none ∧
    clearPageSeries seriesKeyOfEx seriesStorageEx [("series", "A")] "q" =
      seriesStorageEx "q" ∧
    clearPageSeries seriesKeyOfEx seriesStorageEx [("series", "A")] "other" =
      seriesStorageEx "other" := by
  have h := clearPageSeries_correct seriesKeyOfEx seriesStorageEx
    [("series", "A")] (by decide) (by decide)
  refine ⟨h.1, ?_, ?_, h.2.2.2 "other" (by decide) (by decide)⟩
  · have := h.2.1 { key := "p1", timestamp := 0, pageSeriesKey := some "A" }
      (by decide) (by decide)
    simpa using this
  · have := h.2.2.1 { key := "q", timestamp := 0, pageSeriesKey := some "B" }
      (by decide) (by decide)
    simpa using this

/-- C8: for a well-formed index and any pure predicate `p`,
`clearRecordsByParamFilter(p)` removes the data record and index entry of
exactly the entries for which `p(entry.reqParams)` holds: the persisted
index is the original sequence filtered to the non-matching entries
(relative order preserved), matched entries' data records are deleted, and
non-matching entries' data records are unchanged. -/
theorem clearRecordsByParamFilter_correct (p : Option Params → Bool)
    (s : Storage)
    (hNodup : ((getAllIndex s).map Entry.key).Nodup)
    (hKeys : ∀ e ∈ getAllIndex s, e.key ≠ RECORDS_LIST_KEY) :
    getAll (clearRecordsByParamFilter p s) =
      some ((getAllIndex s).filter (fun e => !(p e.reqParams))) ∧
    (∀ e ∈ getAllIndex s, p e.reqParams = true →
      clearRecordsByParamFilter p s e.key = none) ∧
    (∀ e ∈ getAllIndex s, p e.reqParams = false →
      clearRecordsByParamFilter p s e.key = s e.key) := by
  have hmatch_mem : ∀ e ∈ getAllIndex s, p e.reqParams = true →
      e.key ∈ ((getAllIndex s).filter
        (fun e => p e.reqParams)).map Entry.key := by
    intro e he ht
    exact List.mem_map_of_mem _ (List.mem_filter.2 ⟨he, ht⟩)
  have hother_not : ∀ e ∈ getAllIndex s, p e.reqParams = false →
      e.key ∉ ((getAllIndex s).filter
        (fun e => p e.reqParams)).map Entry.key := by
    intro e he ht hmem
    obtain ⟨e2, he2, hkeq⟩ := List.mem_map.1 hmem
    have he2mem := (List.mem_filter.1 he2).1
    have he2eq := (List.mem_filter.1 he2).2
    have heq : e2 = e := List.inj_on_of_nodup_map hNodup he2mem he hkeq
    subst heq
    rw [ht] at he2eq
    exact Bool.false_ne_true he2eq
  refine ⟨?_, ?_, ?_⟩
  · simp only [clearRecordsByParamFilter]
    exact getAll_setIndex _ _
  · intro e he ht
    simp only [clearRecordsByParamFilter]
    rw [setIndex_apply_ne _ _ _ (hKeys e he), removeKeys_apply]
    simp [hmatch_mem e he ht]
  · intro e he ht
    simp only [clearRecordsByParamFilter]
    rw [setIndex_apply_ne _ _ _ (hKeys e he), removeKeys_apply]
    simp [hother_not e he ht]

/-- A concrete storage mirroring the repository test for
`clearRecordsByParamFilter`: two entries whose `reqParams` carry different
`"path"` values, each with its data record. -/
def filterStorageEx : Storage :=
  setIndex
    (fun k => if k = "r1" ∨ k = "r2" then some (Value.record 1) else none)
    [{ key := "r1", timestamp := 0, reqParams := some [("path", "/siteA")] },
     { key := "r2", timestamp := 0, reqParams := some [("path", "/siteB")] }]

/-- The predicate of the repository test: match entries whose normalized
request path is `"/siteB"`. -/
def matchSiteEx (rp : Option Params) : Bool :=
  ((rp.getD []).lookup "path").getD "" == "/siteB"

/-- Witness for C8: filtering by `matchSiteEx` persists only the
non-matching entry, removes the matching entry's data record, and leaves
the non-matching entry's data record unchanged. -/
theorem clearRecordsByParamFilter_correct_witness :
    getAll (clearRecordsByParamFilter matchSiteEx filterStorageEx) =
      some ((getAllIndex filterStorageEx).filter
        (fun e => !(matchSiteEx e.reqParams))) ∧
    clearRecordsByParamFilter matchSiteEx filterStorageEx "r2" = none ∧
    clearRecordsByParamFilter matchSiteEx filterStorageEx "r1" =
      filterStorageEx "r1" := by
  have h := clearRecordsByParamFilter_correct matchSiteEx filterStorageEx
    (by decide) (by decide)
  refine ⟨h.1, ?_, ?_⟩
  · have := h.2.1
      { key := "r2", timestamp := 0, reqParams := some [("path", "/siteB")] }
      (by decide) (by decide)
    simpa using this
  · have := h.2.2
      { key := "r1", timestamp := 0, reqParams := some [("path", "/siteA")] }
      (by decide) (by decide)
    simpa using this

/-! ### Email-forwarding domain helpers
(embedded from `client/lib/domains/email-forwarding/index.js`) -/

/-- The domain types the helpers inspect (`domainTypes.REGISTERED`,
`domainTypes.MAPPED`, and anything else). -/
inductive DomainType where
  | registered
  | mapped
  | other
deriving DecidableEq, Repr

/-- A domain object as used by the helpers: its `name`, its `type`, and
the truthiness of `hasWpcomNameservers`. -/
structure Domain where
  name : String
  type : DomainType
  hasWpcomNameservers : Bool
deriving DecidableEq, Repr

/-- `getEmailForwardingSupportedDomains(domains)`: keeps the domains where
`(wpcomHosted || mapped) && !hasGSuite(domain)`, with `wpcomHosted =
includes([REGISTERED], type) && hasWpcomNameservers` and `mapped =
includes([MAPPED], type)`.  `hasGSuite` is an external collaborator and is
passed as a function. -/
def getEmailForwardingSupportedDomains (hasGSuite : Domain → Bool)
    (domains : List Domain) : List Domain :=
  domains.filter (fun domain =>
    let domainHasGSuite := hasGSuite domain
    let wpcomHosted :=
      domain.type == DomainType.registered && domain.hasWpcomNameservers
    let mapped := domain.type == DomainType.mapped
    (wpcomHosted || mapped) && !domainHasGSuite)

/-- `getEligibleEmailForwardingDomain(selectedDomainName, domains)`: the
`forEach` loop reassigns `domainName` on every iteration, so after the
loop `domainName` is `selectedDomainName` exactly when the LAST eligible
domain's name matches (and `selectedDomainName` is truthy and the eligible
list nonempty), and a falsy value (`undefined`/`false`) otherwise; the
return expression `domainName || (eligibleDomains.length &&
eligibleDomains[0].name) || ''` then falls back to the first eligible
domain's name and finally the empty string.  Falsy `domainName` is
`none`; JS string truthiness is the `= ""` test. -/
def getEligibleEmailForwardingDomain (hasGSuite : Domain → Bool)
    (selectedDomainName : String) (domains : List Domain) : String :=
  let eligibleDomains := getEmailForwardingSupportedDomains hasGSuite domains
  let domainName : Option String :=
    if selectedDomainName = "" then none
    else
      match eligibleDomains.getLast? with
      | none => none
      | some d =>
        if d.name = selectedDomainName then some selectedDomainName else none
  let fallback : String :=
    match eligibleDomains.head? with
    | some d => d.name
    | none => ""
  match domainName with
  | some n => if n = "" then fallback else n
  | none => fallback

/-- The two concrete mapped, GSuite-free domains used to exercise the
eligible-domain helper. -/
def domA : Domain :=
  { name := "a", type := DomainType.mapped, hasWpcomNameservers := false }

/-- Companion concrete domain with name `"b"`. -/
def domB : Domain :=
  { name := "b", type := DomainType.mapped, hasWpcomNameservers := false }

/-- C10 counterexample: with both `"a"` and `"b"` eligible and
`selectedDomainName = "a"`, the function returns `"a"` (the first
eligible domain's name) even though the LAST eligible domain's name is
`"b" ≠ "a"` — so it does not return `selectedDomainName` only when the
last eligible domain matches. -/
theorem getEligibleEmailForwardingDomain_counterexample :
    getEligibleEmailForwardingDomain (fun _ => false) "a" [domA, domB] = "a" ∧
    (getEmailForwardingSupportedDomains (fun _ => false)
        [domA, domB]).getLast?.map Domain.name = some "b" ∧
    ("b" : String) ≠ "a" := by
  refine ⟨rfl, rfl, by decide⟩

/-- C10 amended: the function returns `selectedDomainName` whenever
`selectedDomainName` is nonempty and the last eligible domain's name
equals it; whenever the last eligible domain does not match (or
`selectedDomainName` is empty), it returns the first eligible domain's
name when some domain is eligible — a value that can itself coincide with
`selectedDomainName` when an earlier eligible domain matches; and it
returns the empty string when no domain is eligible. -/
theorem getEligibleEmailForwardingDomain_amended (hasGSuite : Domain → Bool)
    (selectedDomainName : String) (domains : List Domain) :
    (selectedDomainName ≠ "" →
      ∀ d, (getEmailForwardingSupportedDomains hasGSuite domains).getLast? =
          some d → d.name = selectedDomainName →
        getEligibleEmailForwardingDomain hasGSuite selectedDomainName domains =
          selectedDomainName) ∧
    (∀ d0, (getEmailForwardingSupportedDomains hasGSuite domains).head? =
        some d0 →
      (selectedDomainName = "" ∨
        ∀ d, (getEmailForwardingSupportedDomains hasGSuite domains).getLast? =
            some d → d.name ≠ selectedDomainName) →
      getEligibleEmailForwardingDomain hasGSuite selectedDomainName domains =
        d0.name) ∧
    (getEmailForwardingSupportedDomains hasGSuite domains = [] →
      getEligibleEmailForwardingDomain hasGSuite selectedDomainName domains =
        "") := by
  refine ⟨?_, ?_, ?_⟩
  · intro hsel d hlast hname
    simp [getEligibleEmailForwardingDomain, hsel, hlast, hname]
  · intro d0 hhead hcond
    rcases hcond with hsel | hlast
    · simp [getEligibleEmailForwardingDomain, hsel, hhead]
    · cases hl : (getEmailForwardingSupportedDomains hasGSuite domains).getLast? with
      | none =>
        rw [List.getLast?_eq_none_iff] at hl
        rw [hl] at hhead
        simp at hhead
      | some d =>
        have hne := hlast d hl
        by_cases hsel : selectedDomainName = ""
        · simp [getEligibleEmailForwardingDomain, hsel, hhead]
        · simp [getEligibleEmailForwardingDomain, hsel, hl, hne, hhead]
  · intro hnil
    simp [getEligibleEmailForwardingDomain, hnil]

/-- Witness for C10's amended theorem: last-match returns the selection,
an empty selection falls back to the first eligible name, and no eligible
domain yields the empty string. -/
theorem getEligibleEmailForwardingDomain_amended_witness :
    getEligibleEmailForwardingDomain (fun _ => false) "b" [domA, domB] = "b" ∧
    getEligibleEmailForwardingDomain (fun _ => false) "" [domA, domB] = "a" ∧
    getEligibleEmailForwardingDomain (fun _ => false) "z" [] = "" := by
  refine ⟨?_, ?_, ?_⟩
  · exact (getEligibleEmailForwardingDomain_amended (fun _ => false) "b"
      [domA, domB]).1 (by decide) domB rfl rfl
  · exact ((getEligibleEmailForwardingDomain_amended (fun _ => false) ""
      [domA, domB]).2.1 domA rfl (Or.inl rfl))
  · exact (getEligibleEmailForwardingDomain_amended (fun _ => false) "z"
      []).2.2 rfl
